import Mathlib

/-!
Verification development for the icon-map generator
(`src/public/convert-to-map.py`).

The script scans a directory of `.svg` files, derives a bracketed
camel-case identifier from each filename, reads each file (dropping a
leading `<?xml` declaration line when present), accumulates a dictionary
from identifier to content, and finally renders the dictionary with
Python's `str(dict)` followed by `.replace("'", "").replace("\\n", "")`.

All string data is embedded as `List Char`.  Python builtins used by the
script (`str.removesuffix`, `str.split`, `str.capitalize`, `str.join`,
`str.endswith`, `file.readline` / `seek` / `read`, `dict.__setitem__`,
`repr` of a `dict` of `str`, `str.replace`) are modelled faithfully for
the character range the script manipulates (ASCII); this is noted on
each definition.
-/

namespace ConvertToMap

/-- The recognized extension `".svg"` as a character list. -/
def svgExt : List Char := ['.', 's', 'v', 'g']

/-- Python `str.removesuffix`: if `suf` is a suffix of `l`, drop exactly
that one trailing occurrence, otherwise return `l` unchanged. -/
def removesuffix (l suf : List Char) : List Char :=
  if suf.isSuffixOf l then l.take (l.length - suf.length) else l

/-- Python `str.split("-")`: split on every `-`; the empty string splits
to `[""]`, and consecutive separators produce empty segments. -/
def splitDash : List Char → List (List Char)
  | [] => [[]]
  | c :: t =>
    if c = '-' then [] :: splitDash t
    else
      match splitDash t with
      | [] => [[c]]
      | s :: rest => (c :: s) :: rest

/-- Python `str.capitalize` (ASCII model): first character uppercased,
every remaining character lowercased. -/
def pyCapitalize : List Char → List Char
  | [] => []
  | c :: t => c.toUpper :: t.map Char.toLower

/-- The script's `get_camel_case_name`: strip the `".svg"` suffix, split
on `-`, capitalize each segment, and join with no separator. -/
def get_camel_case_name (filename : List Char) : List Char :=
  ((splitDash (removesuffix filename svgExt)).map pyCapitalize).flatten

/-- The key the script inserts: the f-string interpolation
wrapping `get_camel_case_name` between the bracketed constant parts. -/
def derive (filename : List Char) : List Char :=
  "[IconName.".data ++ get_camel_case_name filename ++ "]".data

/-- First line of a text file as Python `f.readline()` returns it: up to
and including the first newline, or the whole text when it has none. -/
def firstLine : List Char → List Char
  | [] => []
  | c :: t => if c = '\n' then ['\n'] else c :: firstLine t

/-- What Python `f.read()` returns after one `readline()`: everything
after the first newline, or nothing when the text has none. -/
def restAfterLine : List Char → List Char
  | [] => []
  | c :: t => if c = '\n' then t else restAfterLine t

/-- The header check of the script's main loop: if
`f.readline().startswith("<?xml")` the stored content is `f.read()`
(everything after the first line), otherwise the file is rewound with
`f.seek(0)` and the full content is stored. -/
def processContent (content : List Char) : List Char :=
  if ("<?xml".data).isPrefixOf (firstLine content) then restAfterLine content
  else content

/-- One entry yielded by `os.scandir`: its `name`, whether `is_file()`
holds, and the text the file would read as. -/
structure DirEntry where
  name : List Char
  isFile : Bool
  content : List Char

/-- The two `continue` filters of the main loop: keep an entry only when
`file.is_file()` and `filename.endswith(".svg")` (case-sensitive). -/
def acceptEntry (e : DirEntry) : Bool :=
  e.isFile && svgExt.isSuffixOf e.name

/-- Python `dict.__setitem__` on an insertion-ordered association list:
an existing key keeps its position and gets the new value, a new key is
appended at the end. -/
def dictInsert : List (List Char × List Char) → List Char → List Char →
    List (List Char × List Char)
  | [], k, v => [(k, v)]
  | (k0, v0) :: t, k, v =>
    if k0 = k then (k0, v) :: t else (k0, v0) :: dictInsert t k v

/-- One iteration of the script's `for file in os.scandir('./icons')`
loop acting on the `contents` dictionary. -/
def stepEntry (d : List (List Char × List Char)) (e : DirEntry) :
    List (List Char × List Char) :=
  if acceptEntry e then dictInsert d (derive e.name) (processContent e.content)
  else d

/-- The whole scan loop: fold the entries, in scan order, into the
initially empty `contents` dictionary. -/
def build (es : List DirEntry) : List (List Char × List Char) :=
  es.foldl stepEntry []

/-- Lowercase hexadecimal digits, as CPython prints `\x..` escapes. -/
def hexChars : List Char :=
  ['0', '1', '2', '3', '4'] ++ ['5', '6', '7', '8', '9'] ++ ['a', 'b', 'c', 'd', 'e', 'f']

/-- Digit `n % 16` in lowercase hexadecimal. -/
def hexDigit (n : Nat) : Char :=
  hexChars.get ⟨n % 16, by have h : n % 16 < 16 := Nat.mod_lt _ (by decide); simpa [hexChars] using h⟩

/-- CPython `repr` escaping of one character of a string whose chosen
quote character is `q` (ASCII model: characters at least `128` are
emitted verbatim, which matches CPython for printable text). -/
def escChar (q c : Char) : List Char :=
  if c = '\\' then ['\\', '\\']
  else if c = q then ['\\', q]
  else if c = '\n' then ['\\', 'n']
  else if c = '\r' then ['\\', 'r']
  else if c = '\t' then ['\\', 't']
  else if c.toNat < 32 ∨ c.toNat = 127 then ['\\', 'x', hexDigit (c.toNat / 16), hexDigit c.toNat]
  else [c]

/-- CPython `repr` quote selection: a single quote, unless the string
contains a single quote and no double quote. -/
def chooseQuote (s : List Char) : Char :=
  if '\'' ∈ s ∧ '"' ∉ s then '"' else '\''

/-- CPython `repr` of a string: the chosen quote, each character
escaped, the closing quote. -/
def pyReprStr (s : List Char) : List Char :=
  chooseQuote s :: (s.map (escChar (chooseQuote s))).flatten ++ [chooseQuote s]

/-- One dictionary entry as `str(dict)` prints it: `repr(key): repr(value)`. -/
def entryRepr (kv : List Char × List Char) : List Char :=
  pyReprStr kv.1 ++ ": ".data ++ pyReprStr kv.2

/-- Joining a list of pieces with a separator between consecutive
pieces (Python `", ".join`). -/
def joinSep (sep : List Char) : List (List Char) → List Char
  | [] => []
  | [x] => x
  | x :: xs => x ++ sep ++ joinSep sep xs

/-- Python `str(contents)` for a `dict` of strings: braces around the
comma-space-joined entry representations. -/
def pyStrDict (m : List (List Char × List Char)) : List Char :=
  '{' :: joinSep ", ".data (m.map entryRepr) ++ ['}']

/-- Python `.replace("'", "")`: every single-quote character deleted. -/
def removeQuote (l : List Char) : List Char :=
  l.filter (fun c => c != '\'')

/-- Python `.replace("\\n", "")`: delete non-overlapping occurrences of
the two-character sequence backslash-`n`, scanning left to right. -/
def removeBackslashN : List Char → List Char
  | [] => []
  | [c] => [c]
  | c :: c2 :: t =>
    if c = '\\' ∧ c2 = 'n' then removeBackslashN t
    else c :: removeBackslashN (c2 :: t)

/-- The script's final rendering:
`str(contents).replace("'", "").replace("\\n", "")`. -/
def serialize (m : List (List Char × List Char)) : List Char :=
  removeBackslashN (removeQuote (pyStrDict m))

/-- Lookup in the association-list model of the `contents` dictionary:
the value of the first (and, from `build`, only) entry with this key. -/
def lookupD : List (List Char × List Char) → List Char → Option (List Char)
  | [], _ => none
  | (k0, v0) :: t, k => if k0 = k then some v0 else lookupD t k

/-- The keys of the dictionary, in iteration order. -/
def dictKeys (d : List (List Char × List Char)) : List (List Char) :=
  d.map Prod.fst

/-- Modelled from the spec: the "last scanned wins" reading of §3 — the
content stored for a key is the processed content of the last accepted
directory entry whose derived identifier equals the key. -/
def lastScannedWins : List DirEntry → List Char → Option (List Char)
  | [], _ => none
  | e :: es, k =>
    match lastScannedWins es k with
    | some v => some v
    | none =>
      if acceptEntry e = true ∧ derive e.name = k then some (processContent e.content)
      else none

/-- A character the two `replace` passes and the `repr` escaping leave
alone: printable ASCII that is neither a single quote nor a backslash. -/
def plainChar (c : Char) : Prop :=
  32 ≤ c.toNat ∧ c.toNat ≤ 126 ∧ c ≠ '\'' ∧ c ≠ '\\'

/-- A string of `plainChar` characters. -/
def plainStr (s : List Char) : Prop :=
  ∀ c ∈ s, plainChar c

instance : DecidablePred plainChar := fun c => by unfold plainChar; infer_instance

instance : DecidablePred plainStr := fun s => by unfold plainStr; infer_instance

/-- The `repr` escaping of a `plainChar`-or-newline character under a
single-quote quote character. -/
def escNL (c : Char) : List Char :=
  if c = '\n' then ['\\', 'n'] else [c]

/-- Modelled from the spec for comparison in C2: the claimed rendering in
which every entry, the last included, is followed by a trailing comma. -/
def claimedRenderAllComma (m : List (List Char × List Char)) : List Char :=
  '{' :: (m.map fun kv => kv.1 ++ ": ".data ++ kv.2 ++ [',']).flatten ++ ['}']

/-! Helper lemmas about the deriver. -/

theorem removesuffix_append (b suf : List Char) : removesuffix (b ++ suf) suf = b := by
  have hsuf : suf.isSuffixOf (b ++ suf) = true := by
    simp [List.isSuffixOf_iff_suffix]
  simp only [removesuffix, hsuf, if_pos, List.length_append, Nat.add_sub_cancel]
  exact List.take_left b suf

theorem removesuffix_of_not_suffix {l suf : List Char} (h : suf.isSuffixOf l = false) :
    removesuffix l suf = l := by
  simp [removesuffix, h]

theorem splitDash_of_not_mem {l : List Char} (h : '-' ∉ l) : splitDash l = [l] := by
  induction l with
  | nil => rfl
  | cons c t ih =>
    have hc : ¬ c = '-' := fun hc => h (hc ▸ List.mem_cons_self c t)
    have ht : '-' ∉ t := fun hm => h (List.mem_cons_of_mem c hm)
    simp [splitDash, hc, ih ht]

theorem removesuffix_subset (l suf : List Char) : removesuffix l suf ⊆ l := by
  unfold removesuffix
  split
  · exact List.take_subset _ _
  · exact fun x hx => hx

/-! Claim theorems about the Identifier Deriver. -/

/-- C1 (counterexample): the derivation does not preserve the case of
non-initial segment characters; on `"already-UPPER.svg"` it yields
`"[IconName.AlreadyUpper]"`, not the claimed `"[IconName.AlreadyUPPER]"`. -/
theorem c1_counterexample :
    derive "already-UPPER.svg".data ≠ "[IconName.AlreadyUPPER]".data ∧
    derive "already-UPPER.svg".data = "[IconName.AlreadyUpper]".data := by
  decide

/-- C1 (amended): for every filename segment, the derivation capitalizes
the first character and force-lowercases every remaining character of the
segment (Python `str.capitalize` semantics); in particular
`derive("already-UPPER.svg") = "[IconName.AlreadyUpper]"`. -/
theorem c1_amended :
    derive "already-UPPER.svg".data = "[IconName.AlreadyUpper]".data ∧
    ∀ seg : List Char, (pyCapitalize seg).tail = seg.tail.map Char.toLower ∧
      (pyCapitalize seg).head? = seg.head?.map Char.toUpper := by
  refine ⟨by decide, fun seg => ?_⟩
  cases seg <;> exact ⟨rfl, rfl⟩

/-- C4: for every filename ending in `".svg"`, `derive` removes exactly
that suffix and no more, splits the remainder on `-`, capitalizes each
segment, concatenates with no separator, and wraps the result as
`[IconName.<result>]`; `derive("alpha-beta.svg") = "[IconName.AlphaBeta]"`,
and a doubled extension loses only one copy:
`derive("a.svg.svg") = "[IconName.A.svg]"`. -/
theorem c4_suffix_stripped_exactly :
    (∀ b : List Char,
      derive (b ++ svgExt) =
        "[IconName.".data ++ ((splitDash b).map pyCapitalize).flatten ++ "]".data) ∧
    derive "alpha-beta.svg".data = "[IconName.AlphaBeta]".data ∧
    derive "a.svg.svg".data = "[IconName.A.svg]".data := by
  refine ⟨fun b => ?_, by decide, by decide⟩
  simp [derive, get_camel_case_name, removesuffix_append]

/-- C7: deriving from a filename that does not end in `".svg"` yields
the same identifier as deriving from the same name with the extension
appended. -/
theorem c7_extension_insensitive (f : List Char)
    (h : svgExt.isSuffixOf f = false) : derive f = derive (f ++ svgExt) := by
  simp [derive, get_camel_case_name, removesuffix_append, removesuffix_of_not_suffix h]

/-- Witness for C7 at the concrete filename `"alpha"`. -/
theorem c7_witness :
    svgExt.isSuffixOf "alpha".data = false ∧
      derive "alpha".data = derive ("alpha".data ++ svgExt) :=
  ⟨by decide, c7_extension_insensitive "alpha".data (by decide)⟩

/-- C8: `derive` is total over every string input: the empty filename
produces `"[IconName.]"`, and a filename with no `-` produces the single
segment capitalized, wrapped in the enclosing notation. -/
theorem c8_total_empty_and_single_segment :
    derive "".data = "[IconName.]".data ∧
    ∀ f : List Char, '-' ∉ f →
      derive f = "[IconName.".data ++ pyCapitalize (removesuffix f svgExt) ++ "]".data := by
  refine ⟨by decide, fun f h => ?_⟩
  have hno : '-' ∉ removesuffix f svgExt := fun hm => h (removesuffix_subset f svgExt hm)
  simp [derive, get_camel_case_name, splitDash_of_not_mem hno]

/-- Witness for C8 at the concrete filename `"icon"`. -/
theorem c8_witness :
    '-' ∉ "icon".data ∧
      derive "icon".data =
        "[IconName.".data ++ pyCapitalize (removesuffix "icon".data svgExt) ++ "]".data :=
  ⟨by decide, (c8_total_empty_and_single_segment.2 "icon".data (by decide))⟩

/-! Helper lemmas about the header check. -/

theorem firstLine_append {line : List Char} (rest : List Char) (h : '\n' ∉ line) :
    firstLine (line ++ '\n' :: rest) = line ++ ['\n'] := by
  induction line with
  | nil => simp [firstLine]
  | cons c t ih =>
    have hc : ¬ c = '\n' := fun hx => h (by simp [hx])
    have ht : '\n' ∉ t := fun hm => h (List.mem_cons_of_mem c hm)
    simp [firstLine, hc, ih ht]

theorem restAfterLine_append {line : List Char} (rest : List Char) (h : '\n' ∉ line) :
    restAfterLine (line ++ '\n' :: rest) = rest := by
  induction line with
  | nil => simp [restAfterLine]
  | cons c t ih =>
    have hc : ¬ c = '\n' := fun hx => h (by simp [hx])
    have ht : '\n' ∉ t := fun hm => h (List.mem_cons_of_mem c hm)
    simp [restAfterLine, hc, ih ht]

theorem firstLine_of_not_mem {l : List Char} (h : '\n' ∉ l) : firstLine l = l := by
  induction l with
  | nil => rfl
  | cons c t ih =>
    have hc : ¬ c = '\n' := fun hx => h (by simp [hx])
    have ht : '\n' ∉ t := fun hm => h (List.mem_cons_of_mem c hm)
    simp [firstLine, hc, ih ht]

theorem restAfterLine_of_not_mem {l : List Char} (h : '\n' ∉ l) : restAfterLine l = [] := by
  induction l with
  | nil => rfl
  | cons c t ih =>
    have hc : ¬ c = '\n' := fun hx => h (by simp [hx])
    have ht : '\n' ∉ t := fun hm => h (List.mem_cons_of_mem c hm)
    simp [restAfterLine, hc, ih ht]

theorem isPrefixOf_append_singleton {c : Char} :
    ∀ (p l : List Char), c ∉ p → p.isPrefixOf (l ++ [c]) = p.isPrefixOf l := by
  intro p
  induction p with
  | nil => intro l _; simp [List.isPrefixOf]
  | cons a as ih =>
    intro l h
    have has : c ∉ as := fun hm => h (List.mem_cons_of_mem a hm)
    have hac : (a == c) = false := by
      have hne : a ≠ c := fun hx => h (by simp [hx])
      simp [hne]
    cases l with
    | nil => simp [List.isPrefixOf, hac]
    | cons b l2 => simp [List.isPrefixOf, ih l2 has]

/-- C3: with header-stripping enabled, the stored content is the file
content with its first line removed exactly when that first line begins
with `"<?xml"`, and the full original content otherwise; the decision
depends only on the first line (the trailing `rest` is universally
quantified and never inspected), and a file with no newline is treated
as a single first line. -/
theorem c3_header_strip (line : List Char) (h : '\n' ∉ line) :
    (∀ rest : List Char,
      processContent (line ++ '\n' :: rest) =
        if ("<?xml".data).isPrefixOf line then rest else line ++ '\n' :: rest) ∧
    processContent line = if ("<?xml".data).isPrefixOf line then [] else line := by
  have hx : '\n' ∉ "<?xml".data := by decide
  constructor
  · intro rest
    simp only [processContent, firstLine_append rest h, restAfterLine_append rest h,
      isPrefixOf_append_singleton ("<?xml".data) line hx]
  · simp only [processContent, firstLine_of_not_mem h, restAfterLine_of_not_mem h]

/-- Witness for C3: a concrete `<?xml` declaration line is stripped. -/
theorem c3_witness :
    '\n' ∉ "<?xml version=1.0?>".data ∧
      processContent ("<?xml version=1.0?>".data ++ '\n' :: "<svg/>".data) =
        "<svg/>".data := by
  refine ⟨by decide, ?_⟩
  rw [(c3_header_strip "<?xml version=1.0?>".data (by decide)).1 "<svg/>".data]
  decide

/-! Lookup, key uniqueness, and the last-scanned-wins characterization. -/

theorem lookupD_dictInsert (d : List (List Char × List Char)) (k v k' : List Char) :
    lookupD (dictInsert d k v) k' = if k = k' then some v else lookupD d k' := by
  induction d with
  | nil => simp [dictInsert, lookupD]
  | cons kv t ih =>
    obtain ⟨k0, v0⟩ := kv
    by_cases h0 : k0 = k
    · subst h0
      simp only [dictInsert, if_pos rfl, lookupD]
      split_ifs <;> rfl
    · simp only [dictInsert, if_neg h0, lookupD, ih]
      split_ifs <;> simp_all

theorem dictKeys_dictInsert (d : List (List Char × List Char)) (k v : List Char) :
    dictKeys (dictInsert d k v) =
      if k ∈ dictKeys d then dictKeys d else dictKeys d ++ [k] := by
  induction d with
  | nil => simp [dictInsert, dictKeys]
  | cons kv t ih =>
    obtain ⟨k0, v0⟩ := kv
    by_cases h0 : k0 = k
    · subst h0
      simp [dictInsert, dictKeys]
    · have hk : ¬ k = k0 := fun hx => h0 hx.symm
      simp only [dictKeys] at ih ⊢
      simp only [dictInsert, if_neg h0, List.map_cons, ih]
      by_cases hmem : k ∈ t.map Prod.fst <;> simp [hmem, hk]

theorem dictKeys_nodup_foldl (es : List DirEntry) :
    ∀ d : List (List Char × List Char), (dictKeys d).Nodup →
      (dictKeys (es.foldl stepEntry d)).Nodup := by
  induction es with
  | nil => intro d hd; simpa using hd
  | cons e es ih =>
    intro d hd
    refine ih (stepEntry d e) ?_
    unfold stepEntry
    split
    · rw [dictKeys_dictInsert]
      split
      · exact hd
      · next hnot =>
        simp [List.nodup_append, hd, hnot]
    · exact hd

theorem lookupD_foldl (es : List DirEntry) :
    ∀ (d : List (List Char × List Char)) (k : List Char),
      lookupD (es.foldl stepEntry d) k =
        match lastScannedWins es k with
        | some v => some v
        | none => lookupD d k := by
  induction es with
  | nil => intro d k; simp [lastScannedWins]
  | cons e es ih =>
    intro d k
    simp only [List.foldl_cons, ih, lastScannedWins]
    cases hls : lastScannedWins es k with
    | some v => rfl
    | none =>
      simp only [stepEntry]
      by_cases ha : acceptEntry e = true
      · simp only [if_pos ha, lookupD_dictInsert]
        by_cases hk : derive e.name = k
        · simp [ha, hk]
        · simp [ha, hk]
      · simp [ha]

/-- C6: a directory entry contributes nothing to the built map unless it
is a regular file whose name ends in `".svg"` case-sensitively; in
particular `"a-b.SVG"` is rejected by the filter and its content is
never used, whatever it is. -/
theorem c6_case_sensitive_filter :
    (∀ (pre : List DirEntry) (e : DirEntry) (post : List DirEntry),
      acceptEntry e = false → build (pre ++ e :: post) = build (pre ++ post)) ∧
    (∀ c : List Char,
      acceptEntry ⟨"a-b.SVG".data, true, c⟩ = false ∧
        build [⟨"a-b.SVG".data, true, c⟩] = []) := by
  constructor
  · intro pre e post h
    have hstep : ∀ d, stepEntry d e = d := by
      intro d
      simp [stepEntry, h]
    simp [build, List.foldl_append, hstep]
  · intro c
    have h : acceptEntry ⟨"a-b.SVG".data, true, c⟩ = false := rfl
    exact ⟨h, by simp [build, stepEntry, h]⟩

/-- Witness for C6: a concrete uppercase-extension file is skipped. -/
theorem c6_witness :
    acceptEntry ⟨"a-b.SVG".data, true, "<svg/>".data⟩ = false ∧
      build ([] ++ ⟨"a-b.SVG".data, true, "<svg/>".data⟩ :: []) = build ([] ++ []) :=
  ⟨rfl, c6_case_sensitive_filter.1 [] ⟨"a-b.SVG".data, true, "<svg/>".data⟩ [] rfl⟩

/-- C9: the built dictionary never holds two entries with the same key,
its value at any key is the processed content of the last scanned
accepted file deriving that key, and on a concrete colliding pair
(`"ab-c.svg"` then `"ab-C.svg"`, both deriving `[IconName.AbC]`) the
later file's content silently overwrites the earlier one. -/
theorem c9_last_scanned_wins :
    (∀ es : List DirEntry, (dictKeys (build es)).Nodup) ∧
    (∀ (es : List DirEntry) (k : List Char),
      lookupD (build es) k = lastScannedWins es k) ∧
    build [⟨"ab-c.svg".data, true, "one".data⟩, ⟨"ab-C.svg".data, true, "two".data⟩] =
      [("[IconName.AbC]".data, "two".data)] := by
  refine ⟨fun es => dictKeys_nodup_foldl es [] (by simp [dictKeys]), fun es k => ?_, by decide⟩
  rw [build, lookupD_foldl es [] k]
  cases lastScannedWins es k <;> rfl

/-! Helper lemmas about the serializer. -/

theorem flatten_map_singleton (l : List Char) :
    (l.map fun c => [c]).flatten = l := by
  induction l with
  | nil => rfl
  | cons c t ih => simp [ih]

theorem chooseQuote_plain {s : List Char} (h : '\'' ∉ s) : chooseQuote s = '\'' := by
  simp [chooseQuote, h]

theorem plainStr_not_quote {s : List Char} (h : plainStr s) : '\'' ∉ s :=
  fun hm => (h _ hm).2.2.1 rfl

theorem escChar_plain {c : Char} (h : plainChar c) : escChar '\'' c = [c] := by
  obtain ⟨h32, h126, hq, hb⟩ := h
  have hn : ¬ c = '\n' := fun hx => absurd h32 (by subst hx; decide)
  have hr : ¬ c = '\r' := fun hx => absurd h32 (by subst hx; decide)
  have ht : ¬ c = '\t' := fun hx => absurd h32 (by subst hx; decide)
  have hcond : ¬ (c.toNat < 32 ∨ c.toNat = 127) := by omega
  simp [escChar, hb, hq, hn, hr, ht, hcond]

theorem pyReprStr_plain {s : List Char} (h : plainStr s) :
    pyReprStr s = '\'' :: s ++ ['\''] := by
  have hcq := chooseQuote_plain (plainStr_not_quote h)
  have hmap : s.map (escChar '\'') = s.map fun c => [c] :=
    List.map_congr_left fun c hc => escChar_plain (h c hc)
  simp [pyReprStr, hcq, hmap, flatten_map_singleton]

theorem escChar_plain_or_newline {c : Char} (h : plainChar c ∨ c = '\n') :
    escChar '\'' c = escNL c := by
  rcases h with h | h
  · rw [escChar_plain h, escNL, if_neg]
    intro hx
    exact absurd h.1 (by subst hx; decide)
  · subst h; decide

theorem pyReprStr_plain_or_newline {s : List Char} (h : ∀ c ∈ s, plainChar c ∨ c = '\n') :
    pyReprStr s = '\'' :: (s.map escNL).flatten ++ ['\''] := by
  have hq : '\'' ∉ s := by
    intro hm
    rcases h _ hm with hp | hp
    · exact hp.2.2.1 rfl
    · exact absurd hp (by decide)
  have hmap : s.map (escChar '\'') = s.map escNL :=
    List.map_congr_left fun c hc => escChar_plain_or_newline (h c hc)
  simp [pyReprStr, chooseQuote_plain hq, hmap]

theorem filter_joinSep (p : Char → Bool) (sep : List Char) :
    ∀ xs : List (List Char),
      (joinSep sep xs).filter p = joinSep (sep.filter p) (xs.map fun x => x.filter p)
  | [] => rfl
  | [x] => rfl
  | x :: y :: t => by
    simp only [joinSep, List.map_cons, List.filter_append,
      filter_joinSep p sep (y :: t)]

theorem mem_joinSep {c : Char} {sep : List Char} :
    ∀ {xs : List (List Char)}, c ∈ joinSep sep xs → c ∈ sep ∨ ∃ x ∈ xs, c ∈ x := by
  intro xs
  induction xs with
  | nil => intro h; exact absurd h (List.not_mem_nil c)
  | cons x t ih =>
    intro h
    cases t with
    | nil =>
      exact Or.inr ⟨x, List.mem_cons_self x [], h⟩
    | cons y t2 =>
      simp only [joinSep, List.append_assoc, List.mem_append] at h
      rcases h with h | h | h
      · exact Or.inr ⟨x, List.mem_cons_self x (y :: t2), h⟩
      · exact Or.inl h
      · rcases ih h with h | ⟨z, hz, hc⟩
        · exact Or.inl h
        · exact Or.inr ⟨z, List.mem_cons_of_mem x hz, hc⟩

theorem rbn_cons {c : Char} {l : List Char} (h : ¬ c = '\\') :
    removeBackslashN (c :: l) = c :: removeBackslashN l := by
  cases l with
  | nil => rfl
  | cons c2 t => simp [removeBackslashN, h]

theorem rbn_pair (l : List Char) :
    removeBackslashN ('\\' :: 'n' :: l) = removeBackslashN l := by
  simp [removeBackslashN]

theorem rbn_id : ∀ {l : List Char}, '\\' ∉ l → removeBackslashN l = l
  | [], _ => rfl
  | c :: t, h => by
    have hc : ¬ c = '\\' := fun hx => h (by simp [hx])
    have ht : '\\' ∉ t := fun hm => h (List.mem_cons_of_mem c hm)
    rw [rbn_cons hc, rbn_id ht]

theorem rbn_append {a : List Char} (h : '\\' ∉ a) (rest : List Char) :
    removeBackslashN (a ++ rest) = a ++ removeBackslashN rest := by
  induction a with
  | nil => rfl
  | cons c t ih =>
    have hc : ¬ c = '\\' := fun hx => h (by simp [hx])
    have ht : '\\' ∉ t := fun hm => h (List.mem_cons_of_mem c hm)
    simp only [List.cons_append, rbn_cons hc, ih ht]

theorem rbn_subset : ∀ l : List Char, removeBackslashN l ⊆ l := by
  have key : ∀ (n : Nat) (l : List Char), l.length ≤ n → removeBackslashN l ⊆ l := by
    intro n
    induction n with
    | zero =>
      intro l hl
      have : l = [] := List.eq_nil_of_length_eq_zero (Nat.le_zero.mp hl)
      subst this
      exact fun x hx => hx
    | succ n ih =>
      intro l hl
      match l with
      | [] => exact fun x hx => hx
      | [c] => exact fun x hx => hx
      | c :: c2 :: t =>
        by_cases hp : c = '\\' ∧ c2 = 'n'
        · intro x hx
          rw [hp.1, hp.2, rbn_pair] at hx
          have hlen : t.length ≤ n := by
            simp only [List.length_cons] at hl
            omega
          exact List.mem_cons_of_mem _ (List.mem_cons_of_mem _ (ih t hlen hx))
        · intro x hx
          have heq : removeBackslashN (c :: c2 :: t) = c :: removeBackslashN (c2 :: t) := by
            simp [removeBackslashN, hp]
          rw [heq] at hx
          have hlen : (c2 :: t).length ≤ n := by
            simp only [List.length_cons] at hl ⊢
            omega
          rcases List.mem_cons.mp hx with hx | hx
          · exact hx ▸ List.mem_cons_self c (c2 :: t)
          · exact List.mem_cons_of_mem _ (ih (c2 :: t) hlen hx)
  exact fun l => key l.length l (Nat.le_refl _)

theorem rbn_escNL {v : List Char} (hv : ∀ c ∈ v, plainChar c ∨ c = '\n') :
    ∀ rest : List Char,
      removeBackslashN ((v.map escNL).flatten ++ rest) =
        v.filter (fun c => c != '\n') ++ removeBackslashN rest := by
  induction v with
  | nil => intro rest; rfl
  | cons c t ih =>
    intro rest
    have hct := hv c (List.mem_cons_self c t)
    have htt : ∀ c ∈ t, plainChar c ∨ c = '\n' := fun x hx => hv x (List.mem_cons_of_mem c hx)
    by_cases hc : c = '\n'
    · subst hc
      show removeBackslashN ('\\' :: 'n' :: ((List.map escNL t).flatten ++ rest)) =
        List.filter (fun c => c != '\n') ('\n' :: t) ++ removeBackslashN rest
      rw [rbn_pair, ih htt rest]
      simp [List.filter_cons]
    · have hplain : plainChar c := by
        rcases hct with h | h
        · exact h
        · exact absurd h hc
      have hcb : ¬ c = '\\' := hplain.2.2.2
      have hesc : escNL c = [c] := by simp [escNL, hc]
      show removeBackslashN ((escNL c ++ (List.map escNL t).flatten) ++ rest) =
        List.filter (fun c => c != '\n') (c :: t) ++ removeBackslashN rest
      rw [hesc]
      show removeBackslashN (c :: ((List.map escNL t).flatten ++ rest)) =
        List.filter (fun c => c != '\n') (c :: t) ++ removeBackslashN rest
      rw [rbn_cons hcb, ih htt rest]
      simp [List.filter_cons, hc]

theorem hexDigit_mem (n : Nat) : hexDigit n ∈ hexChars :=
  List.get_mem hexChars _ _

theorem chooseQuote_cases (s : List Char) : chooseQuote s = '\'' ∨ chooseQuote s = '"' := by
  unfold chooseQuote
  split
  · exact Or.inr rfl
  · exact Or.inl rfl

theorem newline_not_mem_escChar {q c : Char} (hq : ¬ q = '\n') : '\n' ∉ escChar q c := by
  unfold escChar
  split_ifs with h1 h2 h3 h4 h5 h6
  · decide
  · intro hm
    rcases List.mem_cons.mp hm with h | h
    · exact absurd h (by decide)
    · have : '\n' = q := by simpa using h
      exact hq this.symm
  · decide
  · decide
  · decide
  · intro hm
    simp only [List.mem_cons] at hm
    rcases hm with h | h | h | h
    · exact absurd h (by decide)
    · exact absurd h (by decide)
    · have hh := hexDigit_mem (c.toNat / 16)
      rw [← h] at hh
      exact absurd hh (by decide)
    · rcases h with h | h
      · have hh := hexDigit_mem c.toNat
        rw [← h] at hh
        exact absurd hh (by decide)
      · exact absurd h (by decide)
  · intro hm
    have : c = '\n' := by
      have := List.mem_singleton.mp hm
      exact this.symm
    subst this
    exact h6 (Or.inl (by decide))

theorem newline_not_mem_pyReprStr (s : List Char) : '\n' ∉ pyReprStr s := by
  intro hm
  have hq : ¬ chooseQuote s = '\n' := by
    rcases chooseQuote_cases s with h | h <;> simp [h]
  unfold pyReprStr at hm
  rcases List.mem_cons.mp hm with h | h
  · exact hq h.symm
  rcases List.mem_append.mp h with h | h
  · obtain ⟨l, hl, hcl⟩ := List.mem_flatten.mp h
    obtain ⟨x, _, rfl⟩ := List.mem_map.mp hl
    exact newline_not_mem_escChar hq hcl
  · exact hq (List.mem_singleton.mp h).symm

theorem newline_not_mem_serialize (m : List (List Char × List Char)) :
    '\n' ∉ serialize m := by
  intro hm
  have h1 : '\n' ∈ removeQuote (pyStrDict m) := rbn_subset _ hm
  have h2 : '\n' ∈ pyStrDict m := List.mem_of_mem_filter h1
  unfold pyStrDict at h2
  rcases List.mem_cons.mp h2 with h | h
  · exact absurd h (by decide)
  rcases List.mem_append.mp h with h | h
  · rcases mem_joinSep h with h | ⟨x, hx, hcx⟩
    · exact absurd h (by decide)
    · obtain ⟨kv, _, rfl⟩ := List.mem_map.mp hx
      unfold entryRepr at hcx
      rcases List.mem_append.mp hcx with h4 | h4
      · rcases List.mem_append.mp h4 with h5 | h5
        · exact newline_not_mem_pyReprStr _ h5
        · exact absurd h5 (by decide)
      · exact newline_not_mem_pyReprStr _ h4
  · exact absurd h (by decide)

theorem filter_quote_eq_self {s : List Char} (h : '\'' ∉ s) :
    s.filter (fun c => c != '\'') = s :=
  List.filter_eq_self.mpr fun _c hc => bne_iff_ne.mpr fun hx => h (hx ▸ hc)

theorem removeQuote_pyStrDict (m : List (List Char × List Char)) :
    removeQuote (pyStrDict m) =
      '{' :: joinSep ", ".data (m.map fun kv => removeQuote (entryRepr kv)) ++ ['}'] := by
  have hb : (('{' : Char) != '\'') = true := by decide
  have hsep : (", ".data.filter fun c => c != '\'') = ", ".data := by decide
  have hcb : ((['}'] : List Char).filter fun c => c != '\'') = ['}'] := by decide
  simp only [removeQuote, pyStrDict, List.filter_cons, hb, if_true, List.filter_append,
    filter_joinSep, hsep, hcb, List.map_map]
  rfl

theorem removeQuote_entry_plain {kv : List Char × List Char}
    (h1 : plainStr kv.1) (h2 : plainStr kv.2) :
    removeQuote (entryRepr kv) = kv.1 ++ ": ".data ++ kv.2 := by
  have hf1 := filter_quote_eq_self (plainStr_not_quote h1)
  have hf2 := filter_quote_eq_self (plainStr_not_quote h2)
  have hsep : (": ".data.filter fun c => c != '\'') = ": ".data := by decide
  have hq : (((['\''] : List Char)).filter fun c => c != '\'') = [] := by decide
  have hqc : (('\'' : Char) != '\'') = false := by decide
  simp only [removeQuote, entryRepr, pyReprStr_plain h1, pyReprStr_plain h2,
    List.filter_append, List.filter_cons, hqc, if_false, hf1, hf2, hsep, hq]
  simp

theorem filter_quote_escNL {v : List Char} (hv : ∀ c ∈ v, plainChar c ∨ c = '\n') :
    ((v.map escNL).flatten.filter fun c => c != '\'') = (v.map escNL).flatten := by
  refine List.filter_eq_self.mpr fun c hc => bne_iff_ne.mpr fun hx => ?_
  subst hx
  obtain ⟨l, hl, hcl⟩ := List.mem_flatten.mp hc
  obtain ⟨x, hxv, rfl⟩ := List.mem_map.mp hl
  rcases hv x hxv with hp | hp
  · rw [escNL, if_neg (fun hn => absurd hp.1 (by subst hn; decide))] at hcl
    exact hp.2.2.1 (List.mem_singleton.mp hcl).symm
  · subst hp
    rw [escNL, if_pos rfl] at hcl
    exact absurd hcl (by decide)

theorem removeQuote_entry_plainNL {kv : List Char × List Char}
    (h1 : plainStr kv.1) (h2 : ∀ c ∈ kv.2, plainChar c ∨ c = '\n') :
    removeQuote (entryRepr kv) = kv.1 ++ ": ".data ++ (kv.2.map escNL).flatten := by
  have hf1 := filter_quote_eq_self (plainStr_not_quote h1)
  have hf2 := filter_quote_escNL h2
  have hsep : (": ".data.filter fun c => c != '\'') = ": ".data := by decide
  have hq : (((['\''] : List Char)).filter fun c => c != '\'') = [] := by decide
  have hqc : (('\'' : Char) != '\'') = false := by decide
  simp only [removeQuote, entryRepr, pyReprStr_plain h1, pyReprStr_plain_or_newline h2,
    List.filter_append, List.filter_cons, hqc, if_false, hf1, hf2, hsep, hq]
  simp

theorem not_backslash_mem_clean {m : List (List Char × List Char)}
    (h : ∀ kv ∈ m, plainStr kv.1 ∧ plainStr kv.2) :
    '\\' ∉ '{' :: joinSep ", ".data (m.map fun kv => kv.1 ++ ": ".data ++ kv.2) ++ ['}'] := by
  intro hm
  rcases List.mem_cons.mp hm with h1 | h1
  · exact absurd h1 (by decide)
  rcases List.mem_append.mp h1 with h2 | h2
  · rcases mem_joinSep h2 with h3 | ⟨x, hx, hcx⟩
    · exact absurd h3 (by decide)
    · obtain ⟨kv, hkv, rfl⟩ := List.mem_map.mp hx
      rcases List.mem_append.mp hcx with h4 | h4
      · rcases List.mem_append.mp h4 with h5 | h5
        · exact ((h kv hkv).1 _ h5).2.2.2 rfl
        · exact absurd h5 (by decide)
      · exact ((h kv hkv).2 _ h4).2.2.2 rfl
  · exact absurd h2 (by decide)

theorem rbn_clean_entries :
    ∀ (m : List (List Char × List Char)),
      (∀ kv ∈ m, plainStr kv.1 ∧ ∀ c ∈ kv.2, plainChar c ∨ c = '\n') →
      ∀ tail : List Char, '\\' ∉ tail →
      removeBackslashN (joinSep ", ".data
          (m.map fun kv => kv.1 ++ ": ".data ++ (kv.2.map escNL).flatten) ++ tail) =
        joinSep ", ".data
          (m.map fun kv => kv.1 ++ ": ".data ++ kv.2.filter (fun c => c != '\n')) ++ tail := by
  intro m
  induction m with
  | nil =>
    intro _ tail htail
    simpa [joinSep] using rbn_id htail
  | cons kv t ih =>
    intro h tail htail
    have hk : '\\' ∉ kv.1 := fun hm =>
      ((h kv (List.mem_cons_self kv t)).1 _ hm).2.2.2 rfl
    have hv := (h kv (List.mem_cons_self kv t)).2
    have hsep : '\\' ∉ ": ".data := by decide
    have ht : ∀ kv ∈ t, plainStr kv.1 ∧ ∀ c ∈ kv.2, plainChar c ∨ c = '\n' :=
      fun x hx => h x (List.mem_cons_of_mem kv hx)
    cases t with
    | nil =>
      show removeBackslashN ((kv.1 ++ ": ".data ++ (kv.2.map escNL).flatten) ++ tail) = _
      rw [List.append_assoc, List.append_assoc, rbn_append hk, rbn_append hsep,
        rbn_escNL hv tail, rbn_id htail]
      simp [joinSep, List.append_assoc]
    | cons kv2 t2 =>
      have hsep2 : '\\' ∉ ", ".data := by decide
      show removeBackslashN ((kv.1 ++ ": ".data ++ (kv.2.map escNL).flatten ++ ", ".data ++
        joinSep ", ".data ((kv2 :: t2).map fun kv =>
          kv.1 ++ ": ".data ++ (kv.2.map escNL).flatten)) ++ tail) = _
      rw [List.append_assoc, List.append_assoc, List.append_assoc, List.append_assoc,
        rbn_append hk, rbn_append hsep, rbn_escNL hv, rbn_append hsep2, ih ht tail htail]
      simp [joinSep, List.append_assoc]

/-! Claim theorems about the Map Serializer. -/

/-- C2 (counterexample): on a one-entry map the serializer renders
`[IconName.A]: x` with no trailing comma before the closing brace, so the
output differs from the claimed every-entry-ends-in-a-comma form. -/
theorem c2_counterexample :
    serialize [("[IconName.A]".data, "x".data)] = '{' :: "[IconName.A]: x".data ++ ['}'] ∧
    serialize [("[IconName.A]".data, "x".data)] ≠
      claimedRenderAllComma [("[IconName.A]".data, "x".data)] := by
  decide

/-- C2 (amended): the serializer renders an opening brace, then the
entries in iteration order in the form `<Identifier>: <content>`
separated by comma-space with no trailing comma after the final entry and
no key-quoting characters, then a closing brace; the content appears
verbatim for values of printable ASCII free of single quotes and
backslashes; the empty map renders exactly as the two braces. -/
theorem c2_amended :
    serialize [] = "{}".data ∧
    ∀ m : List (List Char × List Char), (∀ kv ∈ m, plainStr kv.1 ∧ plainStr kv.2) →
      serialize m =
        '{' :: joinSep ", ".data (m.map fun kv => kv.1 ++ ": ".data ++ kv.2) ++ ['}'] := by
  refine ⟨by decide, fun m h => ?_⟩
  have hmap : m.map (fun kv => removeQuote (entryRepr kv)) =
      m.map fun kv => kv.1 ++ ": ".data ++ kv.2 :=
    List.map_congr_left fun kv hkv => removeQuote_entry_plain (h kv hkv).1 (h kv hkv).2
  have hclean : removeQuote (pyStrDict m) =
      '{' :: joinSep ", ".data (m.map fun kv => kv.1 ++ ": ".data ++ kv.2) ++ ['}'] := by
    rw [removeQuote_pyStrDict, hmap]
  rw [serialize, hclean, rbn_id (not_backslash_mem_clean h)]

/-- Witness for C2 on a concrete two-entry map. -/
theorem c2_witness :
    (∀ kv ∈ ([("[IconName.A]".data, "x".data), ("[IconName.B]".data, "y".data)] :
        List (List Char × List Char)), plainStr kv.1 ∧ plainStr kv.2) ∧
      serialize [("[IconName.A]".data, "x".data), ("[IconName.B]".data, "y".data)] =
        '{' :: "[IconName.A]: x, [IconName.B]: y".data ++ ['}'] := by
  refine ⟨by decide, ?_⟩
  rw [c2_amended.2 _ (by decide)]
  decide

/-- C5: the serialized output never contains a literal newline character,
and for values of printable ASCII (plus embedded newlines) free of single
quotes and backslashes each embedded line break is collapsed to nothing —
the rendered content is exactly the stored content with its newline
characters deleted, so each entry renders as one continuous line. -/
theorem c5_newlines_collapsed :
    (∀ m : List (List Char × List Char), '\n' ∉ serialize m) ∧
    ∀ m : List (List Char × List Char),
      (∀ kv ∈ m, plainStr kv.1 ∧ ∀ c ∈ kv.2, plainChar c ∨ c = '\n') →
      serialize m =
        '{' :: joinSep ", ".data
          (m.map fun kv => kv.1 ++ ": ".data ++ kv.2.filter (fun c => c != '\n')) ++ ['}'] := by
  refine ⟨newline_not_mem_serialize, fun m h => ?_⟩
  have hmap : m.map (fun kv => removeQuote (entryRepr kv)) =
      m.map fun kv => kv.1 ++ ": ".data ++ (kv.2.map escNL).flatten :=
    List.map_congr_left fun kv hkv =>
      removeQuote_entry_plainNL (h kv hkv).1 (h kv hkv).2
  have hbrace : ¬ ('{' : Char) = '\\' := by decide
  rw [serialize, removeQuote_pyStrDict, hmap]
  simp only [List.cons_append]
  rw [rbn_cons hbrace, rbn_clean_entries m h ['}'] (by decide)]

/-- Witness for C5 on a concrete map whose value embeds a newline. -/
theorem c5_witness :
    (∀ kv ∈ ([("[IconName.A]".data, ['a', '\n', 'b'])] :
        List (List Char × List Char)), plainStr kv.1 ∧ ∀ c ∈ kv.2, plainChar c ∨ c = '\n') ∧
      serialize [("[IconName.A]".data, ['a', '\n', 'b'])] =
        '{' :: "[IconName.A]: ab".data ++ ['}'] := by
  refine ⟨by decide, ?_⟩
  rw [c5_newlines_collapsed.2 _ (by decide)]
  decide

/-- C10: the serialized output never contains a single-quote character —
the final `replace` deletes every occurrence, including those inside
stored content values; concretely the value `it's` is emitted as `"its"`
(CPython picks double quotes for its `repr`, and the apostrophe is then
silently removed). -/
theorem c10_single_quotes_deleted :
    (∀ m : List (List Char × List Char), '\'' ∉ serialize m) ∧
    serialize [("[IconName.A]".data, ['i', 't', '\'', 's'])] =
      '{' :: ("[IconName.A]: ".data ++ ['"', 'i', 't', 's', '"']) ++ ['}'] := by
  refine ⟨fun m hm => ?_, by decide⟩
  have h1 : '\'' ∈ removeQuote (pyStrDict m) := rbn_subset _ hm
  simp [removeQuote, List.mem_filter] at h1

/-- Witness for C10, applying the universal part at a concrete map. -/
theorem c10_witness :
    '\'' ∉ serialize [("[IconName.A]".data, ['i', 't', '\'', 's'])] :=
  c10_single_quotes_deleted.1 [("[IconName.A]".data, ['i', 't', '\'', 's'])]

end ConvertToMap
